import Mathlib

/-!
Shallow embedding of `polyadicqml/qiskit/qkCircuitML.py` (class `qkCircuitML`),
the remote-execution orchestration layer: job chunking in `run`, backend /
noise-model / coupling-map rotation, result normalization (bit-reversal
reordering of statevector probabilities, shot-count histograms), job archival
and error logging.  Machine reals are modelled as exact rationals; the Python
`itertools.cycle` iterators are modelled as indexed pools; file contents as
lists of lines.
-/

namespace PolyadicQML

/-! ### Bitstring helpers

Python's `f"{key:0>{q}b}"` renders `key` as a `q`-wide binary string, most
significant bit first; `[::-1]` reverses a string; `int(s, 2)` parses a
binary string most significant bit first.  We work with `List Bool`,
and keep both least-significant-first and most-significant-first views. -/

/-- Least-significant-first binary digits of `k`, padded/truncated to width `q`
(the reverse of Python's zero-padded `f"{k:0>{q}b}"` rendering for `k < 2^q`). -/
def natToBitsLE : Nat → Nat → List Bool
  | 0, _ => []
  | q + 1, k => (decide (k % 2 = 1)) :: natToBitsLE q (k / 2)

/-- Value of a bit list read least significant bit first. -/
def bitsToNatLE : List Bool → Nat
  | [] => 0
  | b :: bs => (if b then 1 else 0) + 2 * bitsToNatLE bs

/-- Value of a bit list read most significant bit first: Python's `int(s, 2)`. -/
def bitsToNatBE (bs : List Bool) : Nat :=
  bs.foldl (fun a b => 2 * a + (if b then 1 else 0)) 0

theorem bitsToNatBE_eq_LE_reverse (bs : List Bool) :
    bitsToNatBE bs = bitsToNatLE bs.reverse := by
  suffices h : ∀ (l : List Bool) (a : Nat),
      l.foldl (fun a b => 2 * a + (if b then 1 else 0)) a
        = bitsToNatLE l.reverse + a * 2 ^ l.length by
    simpa [bitsToNatBE] using h bs 0
  intro l
  induction l with
  | nil => intro a; simp [bitsToNatLE]
  | cons b t ih =>
    intro a
    simp only [List.foldl_cons, List.reverse_cons, List.length_cons, ih]
    have hrev : bitsToNatLE (t.reverse ++ [b])
        = bitsToNatLE t.reverse + (if b then 1 else 0) * 2 ^ t.reverse.length := by
      generalize t.reverse = r
      induction r with
      | nil => simp [bitsToNatLE]
      | cons c r ihr => cases b <;> simp [bitsToNatLE, ihr] <;> ring
    rw [hrev]
    simp only [List.length_reverse]
    cases b <;> simp <;> ring

theorem natToBitsLE_length (q k : Nat) : (natToBitsLE q k).length = q := by
  induction q generalizing k with
  | zero => rfl
  | succ q ih => simp [natToBitsLE, ih]

/-- Round trip: parsing the `q`-wide LE digits of `k < 2^q` gives back `k`. -/
theorem bitsToNatLE_natToBitsLE (q k : Nat) (hk : k < 2 ^ q) :
    bitsToNatLE (natToBitsLE q k) = k := by
  induction q generalizing k with
  | zero => interval_cases k; rfl
  | succ q ih =>
    have hdiv : k / 2 < 2 ^ q := by
      apply Nat.div_lt_of_lt_mul
      calc k < 2 ^ (q + 1) := hk
        _ = 2 * 2 ^ q := by ring
    simp only [natToBitsLE, bitsToNatLE, ih (k / 2) hdiv]
    rcases Nat.mod_two_eq_zero_or_one k with h | h <;>
      simp [h] <;> omega

/-- Round trip the other way: the digits of the value of a bit list of
length `q` are the list itself. -/
theorem natToBitsLE_bitsToNatLE (bs : List Bool) :
    natToBitsLE bs.length (bitsToNatLE bs) = bs := by
  induction bs with
  | nil => rfl
  | cons b t ih =>
    simp only [List.length_cons, natToBitsLE, bitsToNatLE]
    congr 1
    · cases b <;> simp <;> omega
    · have : ((if b then 1 else 0) + 2 * bitsToNatLE t) / 2 = bitsToNatLE t := by
        cases b <;> simp <;> omega
      rw [this, ih]

theorem bitsToNatLE_lt (bs : List Bool) : bitsToNatLE bs < 2 ^ bs.length := by
  induction bs with
  | nil => simp [bitsToNatLE]
  | cons b t ih =>
    simp only [bitsToNatLE, List.length_cons, pow_succ]
    cases b <;> simp <;> omega

/-- Bit reversal: the canonical column index of native index `k` for a
`q`-qubit register.  This is the source's
`int(f"{key:0>{q}b}"[::-1], 2)`: render `k` as a `q`-wide binary string,
reverse it, parse it back. -/
def bitRev (q k : Nat) : Nat :=
  bitsToNatBE (natToBitsLE q k)

theorem bitRev_eq (q k : Nat) :
    bitRev q k = bitsToNatLE (natToBitsLE q k).reverse := by
  simp [bitRev, bitsToNatBE_eq_LE_reverse]

theorem bitRev_lt (q k : Nat) : bitRev q k < 2 ^ q := by
  rw [bitRev_eq]
  have := bitsToNatLE_lt (natToBitsLE q k).reverse
  simpa [List.length_reverse, natToBitsLE_length] using this

theorem bitRev_bitRev (q k : Nat) (hk : k < 2 ^ q) :
    bitRev q (bitRev q k) = k := by
  rw [bitRev_eq, bitRev_eq]
  have hlen : (natToBitsLE q k).reverse.length = q := by
    simp [List.length_reverse, natToBitsLE_length]
  have h1 : natToBitsLE q (bitsToNatLE (natToBitsLE q k).reverse)
      = (natToBitsLE q k).reverse := by
    have h2 := natToBitsLE_bitsToNatLE (natToBitsLE q k).reverse
    rwa [hlen] at h2
  rw [h1, List.reverse_reverse]
  exact bitsToNatLE_natToBitsLE q k hk

theorem bitRev_injOn (q : Nat) {j k : Nat} (hj : j < 2 ^ q) (hk : k < 2 ^ q)
    (h : bitRev q j = bitRev q k) : j = k := by
  have := congrArg (bitRev q) h
  rwa [bitRev_bitRev q j hj, bitRev_bitRev q k hk] at this

/-! ### Shot-count truthiness

`run`, `request` and `result` test the shot count with Python truthiness
(`if shots:` / `if not shots:`): `None` and `0` both select exact mode. -/

/-- Python truthiness of the `shots` argument (`None` or `int`). -/
def shotsSet : Option Nat → Bool
  | none => false
  | some n => n != 0

namespace qkCircuitML

/-! ### Result Normalizer (`qkCircuitML.result`, lines 208-229)

A job's raw payload is modelled by what the two accessor methods of the
qiskit result object return: one statevector per circuit
(`results.get_statevector(qc)`, complex amplitudes as pairs of rationals)
and one counts dictionary per circuit (`results.get_counts(qc)`, a list of
(bitstring, count) pairs; a Python dict has distinct keys). -/

structure JobResult where
  statevecs : List (List (ℚ × ℚ))
  counts : List (List (List Bool × Nat))

/-- The reordering index list built in `result` (lines 218-219):
`order[j] = int(f"{j:0>q b}"[::-1], 2) = bitRev q j` for `j < 2^q`. -/
def order (q : Nat) : List Nat :=
  (List.range (2 ^ q)).map (bitRev q)

/-- Column selection `out[:, order]` on one row: entry `j` of the new row is
entry `order[j]` of the old row. -/
def reorderRow (q : Nat) (row : List ℚ) : List ℚ :=
  (order q).map (fun k => row.getD k 0)

/-- Exact mode (lines 215-220): squared amplitude magnitudes
(`np.abs(out)**2`) per row, then the column reordering `out[:, order]`. -/
def normalizeExact (q : Nat) (svs : List (List (ℚ × ℚ))) : List (List ℚ) :=
  svs.map (fun sv => reorderRow q (sv.map (fun a => a.1 ^ 2 + a.2 ^ 2)))

/-- Canonical column of a measured bitstring `key` (line 226):
`int(key[::-1], 2)`. -/
def keyColumn (key : List Bool) : Nat :=
  bitsToNatBE key.reverse

theorem keyColumn_eq (key : List Bool) : keyColumn key = bitsToNatLE key := by
  simp [keyColumn, bitsToNatBE_eq_LE_reverse, List.reverse_reverse]

/-- Sampled mode, one circuit (lines 222-226): start from a zero row of
width `2^nbqbits` and place each count at its canonical column
(`out[n, int(key[::-1], 2)] = count`). -/
def sampledRow (q : Nat) (cs : List (List Bool × Nat)) : List ℚ :=
  cs.foldl (fun row kc => row.set (keyColumn kc.1) (kc.2 : ℚ))
    (List.replicate (2 ^ q) 0)

/-- `qkCircuitML.result` after the polling loop (lines 214-229), with the
number of `save_job` calls made alongside the Result Matrix.  In exact mode
the function returns at line 220, before the `if self.save_path:
self.save_job(job)` at line 228; only the sampled branch falls through to
it. -/
def result (q : Nat) (jr : JobResult) (shots : Option Nat)
    (savePathSet : Bool) : List (List ℚ) × Nat :=
  if shotsSet shots = false then
    (normalizeExact q jr.statevecs, 0)
  else
    (jr.counts.map (sampledRow q), if savePathSet then 1 else 0)

/-! ### `qkCircuitML.run` (lines 75-110)

The backend is abstracted as a deterministic per-sample evaluation
`f : α → β` (one Result-Matrix row per sample), identical across draws:
`self.result(job, qc_list, shots)` for a request over samples `c` is
`c.map f`.  The `job_size` argument keeps its Python dynamic type. -/

/-- Python value passed as `job_size`: `None`, an `int`, or some other
object (modelled by strings, e.g. `"2"`). -/
inductive JobSizeArg where
  | pyNone
  | pyInt (n : ℤ)
  | pyStr (s : List Char)
deriving DecidableEq

/-- Python truthiness of a `job_size` value (line 77, `if not job_size:`):
`None`, `0` and `""` are falsy. -/
def truthy : JobSizeArg → Bool
  | .pyNone => false
  | .pyInt n => n != 0
  | .pyStr s => s != []

/-- `isinstance(job_size, int)` (line 92). -/
def isInt : JobSizeArg → Bool
  | .pyInt _ => true
  | _ => false

/-- Chunk list built by the chunked branch (lines 94-97):
`n_jobs = len(X) // job_size` chunks `X[job_size*n : job_size*(n+1)]`,
plus the remainder `X[job_size*n_jobs :]` when it is non-empty. -/
def chunks {α : Type} (X : List α) (js : Nat) : List (List α) :=
  (List.range (X.length / js)).map (fun n => (X.drop (js * n)).take js)
    ++ (if js * (X.length / js) < X.length
        then [X.drop (js * (X.length / js))] else [])

/-- Chunk list for an arbitrary Python `int` job size, with Python floor
division (`Int.fdiv` is `//`).  For `js < 0` the range is empty and, since
`len - len fmod js ≥ len`, the remainder test fails, so no chunk is built
(then `np.vstack([])` raises). -/
def chunksI {α : Type} (X : List α) (js : ℤ) : List (List α) :=
  (List.range (Int.fdiv (X.length : ℤ) js).toNat).map
      (fun n => (X.drop (js.toNat * n)).take js.toNat)
    ++ (if js * Int.fdiv (X.length : ℤ) js < (X.length : ℤ)
        then [X.drop (js * Int.fdiv (X.length : ℤ) js).toNat] else [])

/-- Outcome of a `run` call: a Result Matrix, a `TypeError` (line 92), or
the `ValueError` `np.vstack` raises on an empty request list. -/
inductive RunOutcome (β : Type) where
  | ok (rows : List β)
  | typeError
  | valueError
deriving DecidableEq

/-- `qkCircuitML.run` control flow (lines 75-110) under a deterministic
backend: falsy `job_size` submits the whole batch as one job; otherwise a
non-`int` raises `TypeError`; otherwise one job per chunk, results stacked
with `np.vstack` in chunk order. -/
def run {α β : Type} (X : List α) (f : α → β) (js : JobSizeArg) :
    RunOutcome β :=
  if truthy js = false then
    .ok (X.map f)
  else
    match js with
    | .pyInt n =>
        let cs := chunksI X n
        if cs.isEmpty then .valueError
        else .ok ((cs.map (fun c => c.map f)).flatten)
    | _ => .typeError

/-- Submission / await events of the chunked branch, in program order: the
list comprehension at line 95 (plus line 97) performs every `request`
before the comprehension inside `np.vstack` at line 99 awaits any result. -/
inductive RunEvent where
  | submit (chunkIdx : Nat)
  | await (chunkIdx : Nat)
deriving DecidableEq

def RunEvent.isSubmit : RunEvent → Bool
  | .submit _ => true
  | _ => false

def RunEvent.isAwait : RunEvent → Bool
  | .await _ => true
  | _ => false

/-- Event trace of the chunked branch of `run` for a positive `job_size`:
first one `submit` per chunk (lines 95-97), then one `await` per chunk
(line 99), both in chunk order. -/
def runEvents {α : Type} (X : List α) (js : Nat) : List RunEvent :=
  (List.range (chunks X js).length).map RunEvent.submit
    ++ (List.range (chunks X js).length).map RunEvent.await

/-! ### Backend Rotation Pool (`__init__` lines 60-73, `request` lines 166-183)

`itertools.cycle(l)` over a non-empty list yields `l[i % len(l)]` on its
`i`-th `next`; we model a cycle iterator by its source list plus a draw
counter. -/

structure CycleState (α : Type) where
  pool : List α
  idx : Nat

/-- One `next(...)` on a cycle iterator: yield `pool[idx % len]` and advance.
On an empty pool (`cycle([])`) there is nothing to yield (`none`). -/
def cycleNext {α : Type} (c : CycleState α) : Option α × CycleState α :=
  (c.pool[c.idx % c.pool.length]?, ⟨c.pool, c.idx + 1⟩)

/-- Constructor argument that is either a single value or a `list` (line 61
and line 66 wrap a non-list into a one-element list before `cycle`). -/
inductive ArgList (α : Type) where
  | single (a : α)
  | list (l : List α)

/-- The list handed to `cycle`: `backend if isinstance(backend, list) else
[backend]`. -/
def argPool {α : Type} : ArgList α → List α
  | .single a => [a]
  | .list l => l

/-- The three parallel cycle iterators held by a `qkCircuitML` instance
(fields `backend`, `noise_model`, `coupling_map`). -/
structure PoolState (α β γ : Type) where
  backend : CycleState α
  noise_model : CycleState β
  coupling_map : CycleState γ

/-- Pool state right after `__init__` for non-`Backends` arguments:
each cycle starts at its first element. -/
def initPools {α β γ : Type} (backend : ArgList α) (noise : ArgList β)
    (coupling : ArgList γ) : PoolState α β γ :=
  ⟨⟨argPool backend, 0⟩, ⟨argPool noise, 0⟩, ⟨argPool coupling, 0⟩⟩

/-- The pool side of one `request` (lines 173, 177, 181): exactly one
`next` on `noise_model`, one on `coupling_map`, one on `backend`; returns
the drawn triple. -/
def requestDraw {α β γ : Type} (s : PoolState α β γ) :
    (Option α × Option β × Option γ) × PoolState α β γ :=
  let nm := cycleNext s.noise_model
  let cm := cycleNext s.coupling_map
  let bk := cycleNext s.backend
  ((bk.1, nm.1, cm.1), ⟨bk.2, nm.2, cm.2⟩)

/-- Pool state after `i` submissions. -/
def poolsAfter {α β γ : Type} (s : PoolState α β γ) : Nat → PoolState α β γ
  | 0 => s
  | i + 1 => (requestDraw (poolsAfter s i)).2

/-- The triple drawn by the `i`-th submission (0-based). -/
def drawAt {α β γ : Type} (s : PoolState α β γ) (i : Nat) :
    Option α × Option β × Option γ :=
  (requestDraw (poolsAfter s i)).1

/-! ### Constructor (`__init__`, lines 50-73)

We track the trace of attribute assignments made by the body of
`qkCircuitML.__init__` itself (after the `super().__init__` call at line
50), in program order, together with whether the `ValueError` at line 64
is raised.  `backend` is either a `Backends` pool object or a plain
value/list; noise arguments are tracked by presence. -/

inductive BackendArg where
  | backendsPool
  | plain
  | plainList (n : Nat)
deriving DecidableEq

structure InitResult where
  assigned : List String
  raisesValueError : Bool
deriving DecidableEq

/-- Attribute assignments and error behaviour of `__init__`: `save_path`
is set at line 52; a `Backends` argument takes the branch at lines 54-58
(no exclusivity check); otherwise `backend` is set at line 61 before the
check at lines 63-64 raises, and only when it does not raise are
`noise_model` and `coupling_map` set (lines 66-67, re-assigned at lines
72-73 when `noise_backend` is given). -/
def init (backend : BackendArg) (noiseModelGiven noiseBackendGiven : Bool) :
    InitResult :=
  match backend with
  | .backendsPool =>
      ⟨["save_path", "__backend__", "backend", "noise_model", "coupling_map"],
        false⟩
  | _ =>
      if noiseModelGiven && noiseBackendGiven then
        ⟨["save_path", "backend"], true⟩
      else if noiseBackendGiven then
        ⟨["save_path", "backend", "noise_model", "coupling_map",
          "noise_model", "coupling_map"], false⟩
      else
        ⟨["save_path", "backend", "noise_model", "coupling_map"], false⟩

/-! ### Error logging (`run`, lines 120-125)

On a `QiskitError`, `run` prints a timestamped line and writes the same
line to `error.log`.  File contents are modelled as a list of lines.
`open("error.log", "w")` opens for writing with truncation. -/

/-- Effect of `open(path, "w")` on the file contents: truncate. -/
def openW (_contents : List String) : List String := []

/-- Effect of `f.write(line)` on an open file. -/
def writeLine (file : List String) (line : String) : List String :=
  file ++ [line]

/-- The logging step of the `QiskitError` handler (lines 122-123) as a
transformation of the `error.log` contents. -/
def logError (contents : List String) (line : String) : List String :=
  writeLine (openW contents) line

end qkCircuitML

/-! ### Helper lemmas -/

theorem getD_map_range {β : Type} (g : Nat → β) (d : β) {n j : Nat} (hj : j < n) :
    (((List.range n).map g).getD j d) = g j := by
  simp [List.getD_eq_getElem?_getD, List.getElem?_range hj]

theorem reorderRow_getD (q : Nat) (row : List ℚ) {j : Nat} (hj : j < 2 ^ q) :
    (qkCircuitML.reorderRow q row).getD j 0 = row.getD (bitRev q j) 0 := by
  unfold qkCircuitML.reorderRow qkCircuitML.order
  rw [List.map_map]
  exact getD_map_range _ _ hj

theorem flatten_range_take {α : Type} (X : List α) (js : Nat) (n : Nat) :
    ((List.range n).map (fun k => (X.drop (js * k)).take js)).flatten
      = X.take (js * n) := by
  induction n with
  | zero => simp
  | succ n ih =>
    rw [List.range_succ, List.map_append, List.flatten_append, ih]
    have : js * (n + 1) = js * n + js := by ring
    rw [this, List.take_add]
    simp

theorem chunks_flatten {α : Type} (X : List α) {js : Nat} (h : 0 < js) :
    (qkCircuitML.chunks X js).flatten = X := by
  unfold qkCircuitML.chunks
  rw [List.flatten_append, flatten_range_take]
  have hle : js * (X.length / js) ≤ X.length := by
    rw [Nat.mul_comm]; exact Nat.div_mul_le_self _ _
  by_cases hlt : js * (X.length / js) < X.length
  · simp [hlt, List.take_append_drop]
  · have heq : js * (X.length / js) = X.length := by omega
    simp [hlt, heq]

theorem chunks_ne_nil {α : Type} (X : List α) {js : Nat} (h : 0 < js)
    (hX : X ≠ []) : qkCircuitML.chunks X js ≠ [] := by
  intro hc
  apply hX
  have := congrArg List.flatten hc
  rwa [chunks_flatten X h] at this

theorem chunksI_eq_chunks {α : Type} (X : List α) {n : ℤ} (hn : 0 < n) :
    qkCircuitML.chunksI X n = qkCircuitML.chunks X n.toNat := by
  have hn' : n = (n.toNat : ℤ) := (Int.toNat_of_nonneg hn.le).symm
  have hfd : Int.fdiv (X.length : ℤ) n = ((X.length / n.toNat : ℕ) : ℤ) := by
    conv_lhs => rw [hn']
    rw [Int.fdiv_eq_tdiv (by positivity) (by positivity), Int.ofNat_tdiv]
  unfold qkCircuitML.chunksI qkCircuitML.chunks
  rw [hfd]
  conv_lhs => rw [hn']
  simp only [← Nat.cast_mul, Int.toNat_natCast, Nat.cast_lt]

theorem run_pyInt_pos {α β : Type} (X : List α) (f : α → β) {n : ℤ}
    (hn : 0 < n) (hX : X ≠ []) :
    qkCircuitML.run X f (.pyInt n)
      = .ok (((qkCircuitML.chunks X n.toNat).map (fun c => c.map f)).flatten) := by
  have ht : qkCircuitML.truthy (.pyInt n) = true := by
    simp [qkCircuitML.truthy]; omega
  have hpos : 0 < n.toNat := by omega
  obtain ⟨c, cs, hcs⟩ := List.exists_cons_of_ne_nil (chunks_ne_nil X hpos hX)
  unfold qkCircuitML.run
  rw [ht]
  simp only [Bool.true_eq_false, Bool.false_eq_true, if_false,
    chunksI_eq_chunks X hn, hcs, List.isEmpty_cons]

theorem bitsToNatLE_inj {bs cs : List Bool} (hlen : bs.length = cs.length)
    (h : bitsToNatLE bs = bitsToNatLE cs) : bs = cs := by
  have h1 := natToBitsLE_bitsToNatLE bs
  have h2 := natToBitsLE_bitsToNatLE cs
  rw [← h1, ← h2, hlen, h]

theorem keyColumn_lt (q : Nat) {key : List Bool} (h : key.length = q) :
    qkCircuitML.keyColumn key < 2 ^ q := by
  rw [qkCircuitML.keyColumn_eq, ← h]
  exact bitsToNatLE_lt key

theorem keyColumn_map_nodup (q : Nat) (cs : List (List Bool × Nat))
    (hlen : ∀ kc ∈ cs, kc.1.length = q) (hnd : (cs.map Prod.fst).Nodup) :
    (cs.map (fun kc => qkCircuitML.keyColumn kc.1)).Nodup := by
  have hmm : cs.map (fun kc => qkCircuitML.keyColumn kc.1)
      = (cs.map Prod.fst).map qkCircuitML.keyColumn := by
    simp [List.map_map]
  rw [hmm]
  refine List.Nodup.map_on ?_ hnd
  intro x hx y hy hxy
  obtain ⟨kx, hkx, hkx1⟩ := List.mem_map.mp hx
  obtain ⟨ky, hky, hky1⟩ := List.mem_map.mp hy
  rw [qkCircuitML.keyColumn_eq, qkCircuitML.keyColumn_eq] at hxy
  refine bitsToNatLE_inj ?_ hxy
  rw [← hkx1, ← hky1, hlen kx hkx, hlen ky hky]

theorem sampledFold_length (cs : List (List Bool × Nat)) :
    ∀ v : List ℚ,
      (cs.foldl (fun row kc => row.set (qkCircuitML.keyColumn kc.1) (kc.2 : ℚ)) v).length
        = v.length := by
  induction cs with
  | nil => intro v; rfl
  | cons kc t ih =>
    intro v
    simp only [List.foldl_cons]
    rw [ih, List.length_set]

theorem sampledFold_getD_untouched (cs : List (List Bool × Nat)) :
    ∀ (v : List ℚ) (j : Nat), (∀ kc ∈ cs, qkCircuitML.keyColumn kc.1 ≠ j) →
      (cs.foldl (fun row kc => row.set (qkCircuitML.keyColumn kc.1) (kc.2 : ℚ)) v).getD j 0
        = v.getD j 0 := by
  induction cs with
  | nil => intro v j _; rfl
  | cons kc t ih =>
    intro v j h
    simp only [List.foldl_cons]
    rw [ih _ _ (fun x hx => h x (List.mem_cons_of_mem _ hx))]
    have hc : qkCircuitML.keyColumn kc.1 ≠ j := h kc (List.mem_cons_self _ _)
    simp [List.getD_eq_getElem?_getD, List.getElem?_set_ne hc]

theorem sampledFold_getD_mem (k : List Bool) (c : Nat) :
    ∀ (cs : List (List Bool × Nat)) (v : List ℚ),
      (cs.map (fun kc => qkCircuitML.keyColumn kc.1)).Nodup →
      (k, c) ∈ cs → qkCircuitML.keyColumn k < v.length →
      (cs.foldl (fun row kc => row.set (qkCircuitML.keyColumn kc.1) (kc.2 : ℚ)) v).getD
          (qkCircuitML.keyColumn k) 0
        = (c : ℚ) := by
  intro cs
  induction cs with
  | nil => intro v _ hmem _; cases hmem
  | cons kc t ih =>
    intro v hnd hmem hlt
    simp only [List.map_cons, List.nodup_cons] at hnd
    simp only [List.foldl_cons]
    rcases List.mem_cons.mp hmem with heq | hmemt
    · have hk1 : kc.1 = k := by rw [← heq]
      have hk2 : kc.2 = c := by rw [← heq]
      rw [sampledFold_getD_untouched t _ _ ?_]
      · rw [hk1, hk2]
        simp [List.getD_eq_getElem?_getD, List.getElem?_set_self hlt]
      · intro x hx hcol
        apply hnd.1
        rw [hk1, ← hcol]
        exact List.mem_map.mpr ⟨x, hx, rfl⟩
    · exact ih _ hnd.2 hmemt (by rwa [List.length_set])

theorem sum_set_eq (v : List ℚ) :
    ∀ (i : Nat) (a : ℚ), i < v.length →
      (v.set i a).sum = v.sum + a - v.getD i 0 := by
  induction v with
  | nil => intro i a h; simp at h
  | cons b t ih =>
    intro i a h
    cases i with
    | zero => simp [List.set]; ring
    | succ n =>
      simp only [List.set, List.sum_cons, List.getD_cons_succ,
        ih n a (by simpa using h)]
      ring

theorem sampledFold_sum :
    ∀ (cs : List (List Bool × Nat)) (v : List ℚ),
      (cs.map (fun kc => qkCircuitML.keyColumn kc.1)).Nodup →
      (∀ kc ∈ cs, qkCircuitML.keyColumn kc.1 < v.length) →
      (∀ kc ∈ cs, v.getD (qkCircuitML.keyColumn kc.1) 0 = 0) →
      (cs.foldl (fun row kc => row.set (qkCircuitML.keyColumn kc.1) (kc.2 : ℚ)) v).sum
        = v.sum + (cs.map (fun kc => (kc.2 : ℚ))).sum := by
  intro cs
  induction cs with
  | nil => intro v _ _ _; simp
  | cons kc t ih =>
    intro v hnd hlt hz
    simp only [List.map_cons, List.nodup_cons] at hnd
    simp only [List.foldl_cons, List.map_cons, List.sum_cons]
    rw [ih _ hnd.2 ?_ ?_]
    · rw [sum_set_eq v _ _ (hlt kc (List.mem_cons_self _ _)),
        hz kc (List.mem_cons_self _ _)]
      ring
    · intro x hx
      rw [List.length_set]
      exact hlt x (List.mem_cons_of_mem _ hx)
    · intro x hx
      have hne : qkCircuitML.keyColumn kc.1 ≠ qkCircuitML.keyColumn x.1 := by
        intro hcol
        exact hnd.1 (hcol ▸ List.mem_map.mpr ⟨x, hx, rfl⟩)
      simp only [List.getD_eq_getElem?_getD, List.getElem?_set_ne hne]
      have := hz x (List.mem_cons_of_mem _ hx)
      simpa [List.getD_eq_getElem?_getD] using this

theorem sum_map_range_eq_finset (g : Nat → ℚ) :
    ∀ n : Nat, ((List.range n).map g).sum = ∑ i ∈ Finset.range n, g i := by
  intro n
  induction n with
  | zero => simp
  | succ n ih =>
    rw [List.range_succ, List.map_append, List.sum_append, ih,
      Finset.sum_range_succ]
    simp

theorem sum_map_range_getD (l : List ℚ) :
    ((List.range l.length).map (fun i => l.getD i 0)).sum = l.sum := by
  induction l with
  | nil => simp
  | cons a t ih =>
    rw [List.length_cons, List.range_succ_eq_map, List.map_cons, List.map_map]
    simp only [List.getD_cons_zero, List.sum_cons]
    have : (fun i => (a :: t).getD i 0) ∘ Nat.succ = fun i => t.getD i 0 := by
      funext i; simp
    rw [this, ih]

theorem reorderRow_sum (q : Nat) (row : List ℚ) (h : row.length = 2 ^ q) :
    (qkCircuitML.reorderRow q row).sum = row.sum := by
  unfold qkCircuitML.reorderRow qkCircuitML.order
  rw [List.map_map, sum_map_range_eq_finset]
  have hbij : ∑ i ∈ Finset.range (2 ^ q), row.getD (bitRev q i) 0
      = ∑ i ∈ Finset.range (2 ^ q), row.getD i 0 := by
    refine Finset.sum_nbij' (bitRev q) (bitRev q) ?_ ?_ ?_ ?_ ?_
    · intro a ha; exact Finset.mem_range.mpr (bitRev_lt q a)
    · intro a ha; exact Finset.mem_range.mpr (bitRev_lt q a)
    · intro a ha; exact bitRev_bitRev q a (Finset.mem_range.mp ha)
    · intro a ha; exact bitRev_bitRev q a (Finset.mem_range.mp ha)
    · intro a ha; rfl
  have hfc : ((fun k => row.getD k 0) ∘ bitRev q) = fun i => row.getD (bitRev q i) 0 := rfl
  rw [hfc, hbij, ← sum_map_range_eq_finset, ← h, sum_map_range_getD]

theorem poolsAfter_eq {α β γ : Type} (s : qkCircuitML.PoolState α β γ) :
    ∀ i : Nat,
      qkCircuitML.poolsAfter s i
        = ⟨⟨s.backend.pool, s.backend.idx + i⟩,
           ⟨s.noise_model.pool, s.noise_model.idx + i⟩,
           ⟨s.coupling_map.pool, s.coupling_map.idx + i⟩⟩ := by
  intro i
  induction i with
  | zero => rfl
  | succ i ih =>
    show (qkCircuitML.requestDraw (qkCircuitML.poolsAfter s i)).2 = _
    rw [ih]
    simp only [qkCircuitML.requestDraw, qkCircuitML.cycleNext]
    congr 1 <;> omega

theorem drawAt_eq {α β γ : Type} (s : qkCircuitML.PoolState α β γ) (i : Nat) :
    qkCircuitML.drawAt s i
      = (s.backend.pool[(s.backend.idx + i) % s.backend.pool.length]?,
         s.noise_model.pool[(s.noise_model.idx + i) % s.noise_model.pool.length]?,
         s.coupling_map.pool[(s.coupling_map.idx + i) % s.coupling_map.pool.length]?) := by
  rw [qkCircuitML.drawAt, poolsAfter_eq]
  rfl

/-! ### The claims -/

/-- C1: for every sample batch of size ≥ 1, every positive integer
`job_size`, and a deterministic backend identical across draws (modelled by
a fixed per-sample row function `f`, which absorbs `params` and `shots`),
`run(X, params, shots, job_size)` returns the same Result Matrix as
`run(X, params, shots, None)`. -/
theorem c1_chunked_run_matches_single {α β : Type} (X : List α) (f : α → β)
    (n : ℤ) (hX : 1 ≤ X.length) (hn : 0 < n) :
    qkCircuitML.run X f (.pyInt n) = qkCircuitML.run X f .pyNone := by
  have hX' : X ≠ [] := by
    intro h; rw [h] at hX; simp at hX
  rw [run_pyInt_pos X f hn hX']
  have hflat : ((qkCircuitML.chunks X n.toNat).map (fun c => c.map f)).flatten
      = X.map f := by
    rw [← List.map_flatten, chunks_flatten X (by omega)]
  rw [hflat]
  simp [qkCircuitML.run, qkCircuitML.truthy]

theorem c1_witness :
    1 ≤ [1, 2, 3, 4, 5].length ∧ (0 : ℤ) < 2
      ∧ qkCircuitML.run [1, 2, 3, 4, 5] (fun x => x * 10) (.pyInt 2)
          = qkCircuitML.run [1, 2, 3, 4, 5] (fun x => x * 10) .pyNone :=
  ⟨by decide, by decide,
    c1_chunked_run_matches_single [1, 2, 3, 4, 5] (fun x => x * 10) 2
      (by decide) (by decide)⟩

/-- C2: in exact/statevector mode the normalizer relocates the probability
at native index `k` to canonical column `bitRev q k`; in particular a unit
amplitude vector concentrated at native index `k` yields a row whose `1`
sits exactly at column `bitRev q k` (and `0` everywhere else). -/
theorem c2_statevector_bit_reversal (q : Nat) :
    (∀ (sv : List (ℚ × ℚ)) (k : Nat), k < 2 ^ q →
      (qkCircuitML.reorderRow q (sv.map (fun a => a.1 ^ 2 + a.2 ^ 2))).getD
          (bitRev q k) 0
        = (sv.map (fun a => a.1 ^ 2 + a.2 ^ 2)).getD k 0)
    ∧ (∀ k j : Nat, k < 2 ^ q → j < 2 ^ q →
      ((qkCircuitML.normalizeExact q
          [(List.range (2 ^ q)).map
            (fun i => if i = k then ((1 : ℚ), (0 : ℚ)) else (0, 0))]).getD 0 []).getD j 0
        = if j = bitRev q k then 1 else 0) := by
  constructor
  · intro sv k hk
    rw [reorderRow_getD q _ (bitRev_lt q k), bitRev_bitRev q k hk]
  · intro k j hk hj
    have hprob : ((List.range (2 ^ q)).map
          (fun i => if i = k then ((1 : ℚ), (0 : ℚ)) else (0, 0))).map
            (fun a => a.1 ^ 2 + a.2 ^ 2)
        = (List.range (2 ^ q)).map (fun i => if i = k then (1 : ℚ) else 0) := by
      rw [List.map_map]
      have : ((fun a : ℚ × ℚ => a.1 ^ 2 + a.2 ^ 2)
            ∘ fun i => if i = k then ((1 : ℚ), (0 : ℚ)) else (0, 0))
          = fun i => if i = k then (1 : ℚ) else 0 := by
        funext i
        by_cases h : i = k <;> simp [h]
      rw [this]
    show (qkCircuitML.reorderRow q _).getD j 0 = _
    rw [hprob, reorderRow_getD q _ hj, getD_map_range _ _ (bitRev_lt q j)]
    by_cases h : bitRev q j = k
    · rw [if_pos h, if_pos]
      rw [← h, bitRev_bitRev q j hj]
    · rw [if_neg h, if_neg]
      intro hjk
      apply h
      rw [hjk, bitRev_bitRev q k hk]

theorem c2_witness :
    (1 : Nat) < 2 ^ 2 ∧ (2 : Nat) < 2 ^ 2
      ∧ ((qkCircuitML.normalizeExact 2
          [(List.range (2 ^ 2)).map
            (fun i => if i = 1 then ((1 : ℚ), (0 : ℚ)) else (0, 0))]).getD 0 []).getD 2 0
        = 1 := by
  refine ⟨by decide, by decide, ?_⟩
  have h := (c2_statevector_bit_reversal 2).2 1 2 (by decide) (by decide)
  rw [h]
  decide

/-- C3: in sampled mode each count is placed at the canonical column
obtained by reversing the measured bitstring and reading it base 2, and
unobserved outcomes stay zero (keys of a counts dict are distinct and
`nbqbits` wide); for 2 qubits with counts 01 ↦ 40, 10 ↦ 60 the row is
[0, 60, 40, 0]. -/
theorem c3_sampled_mode_placement (q : Nat) (cs : List (List Bool × Nat))
    (hlen : ∀ kc ∈ cs, kc.1.length = q) (hnd : (cs.map Prod.fst).Nodup) :
    (∀ kc ∈ cs,
      (qkCircuitML.sampledRow q cs).getD (qkCircuitML.keyColumn kc.1) 0 = (kc.2 : ℚ))
    ∧ (∀ j, j < 2 ^ q → (∀ kc ∈ cs, qkCircuitML.keyColumn kc.1 ≠ j) →
      (qkCircuitML.sampledRow q cs).getD j 0 = 0) := by
  constructor
  · intro kc hkc
    refine sampledFold_getD_mem kc.1 kc.2 cs _
      (keyColumn_map_nodup q cs hlen hnd) hkc ?_
    rw [List.length_replicate]
    exact keyColumn_lt q (hlen kc hkc)
  · intro j hj huntouched
    rw [qkCircuitML.sampledRow, sampledFold_getD_untouched cs _ j huntouched]
    simp [List.getD_eq_getElem?_getD, List.getElem?_replicate, hj]

theorem c3_witness :
    (∀ kc ∈ [([false, true], 40), ([true, false], 60)], kc.1.length = 2)
    ∧ ([([false, true], 40), ([true, false], 60)].map Prod.fst).Nodup
    ∧ (qkCircuitML.sampledRow 2 [([false, true], 40), ([true, false], 60)]).getD 1 0 = 60
    ∧ (qkCircuitML.sampledRow 2 [([false, true], 40), ([true, false], 60)]).getD 2 0 = 40
    ∧ (qkCircuitML.sampledRow 2 [([false, true], 40), ([true, false], 60)]).getD 0 0 = 0
    ∧ (qkCircuitML.sampledRow 2 [([false, true], 40), ([true, false], 60)]).getD 3 0 = 0 := by
  have h := c3_sampled_mode_placement 2 [([false, true], 40), ([true, false], 60)]
    (by decide) (by decide)
  refine ⟨by decide, by decide, ?_, ?_, ?_, ?_⟩
  · exact h.1 ([true, false], 60) (by decide)
  · exact h.1 ([false, true], 40) (by decide)
  · exact h.2 0 (by decide) (by decide)
  · exact h.2 3 (by decide) (by decide)

/-- C4: the error-logging step of the `QiskitError` handler does NOT append:
`open("error.log", "w")` truncates the file, so after logging a second
error the previously logged line is gone and the log holds exactly the new
line.  Evaluated at a log already holding one line. -/
theorem c4_error_log_truncated :
    qkCircuitML.logError ["Mon - Error in qkCircuitML.run :QiskitError"]
        "Tue - Error in qkCircuitML.run :QiskitError"
      = ["Tue - Error in qkCircuitML.run :QiskitError"]
    ∧ qkCircuitML.logError ["Mon - Error in qkCircuitML.run :QiskitError"]
        "Tue - Error in qkCircuitML.run :QiskitError"
      ≠ ["Mon - Error in qkCircuitML.run :QiskitError",
         "Tue - Error in qkCircuitML.run :QiskitError"] := by
  constructor
  · rfl
  · decide

/-- C5 counterexample: with a save path configured and `shots` unset
(exact/statevector mode), `result` returns at line 220 before the
`save_job` call at line 228, so the job is persisted zero times, not once. -/
theorem c5_counterexample :
    (qkCircuitML.result 1
        ⟨[[((1 : ℚ), (0 : ℚ)), (0, 0)]], [[([false], 1)]]⟩ none true).2 = 0 := by
  rfl

/-- C5 (amended): when archival is configured, each successfully awaited
job is persisted via `save_job` exactly once per job in sampled mode (one
archive entry per chunk job in a multi-chunk run), while in
exact/statevector mode the early return skips archival, so no job is
persisted. -/
theorem c5_archival_once_per_sampled_job (q : Nat) (jr : qkCircuitML.JobResult)
    (shots : Option Nat) (jrs : List qkCircuitML.JobResult) :
    (shotsSet shots = true → (qkCircuitML.result q jr shots true).2 = 1)
    ∧ (shotsSet shots = false → ∀ save : Bool,
        (qkCircuitML.result q jr shots save).2 = 0)
    ∧ (shotsSet shots = true →
        (jrs.map (fun j => (qkCircuitML.result q j shots true).2)).sum
          = jrs.length) := by
  refine ⟨?_, ?_, ?_⟩
  · intro hs
    simp [qkCircuitML.result, hs]
  · intro hs save
    simp [qkCircuitML.result, hs]
  · intro hs
    induction jrs with
    | nil => simp
    | cons j t ih =>
      simp only [List.map_cons, List.sum_cons, List.length_cons, ih]
      simp [qkCircuitML.result, hs]
      omega

theorem c5_witness :
    shotsSet (some 100) = true
    ∧ (qkCircuitML.result 1 ⟨[], [[([false], 100)]]⟩ (some 100) true).2 = 1
    ∧ shotsSet none = false
    ∧ (qkCircuitML.result 1 ⟨[], [[([false], 100)]]⟩ none true).2 = 0
    ∧ ([⟨[], [[([false], 100)]]⟩, ⟨[], [[([false], 100)]]⟩].map
        (fun j => (qkCircuitML.result 1 j (some 100) true).2)).sum = 2 :=
  ⟨by decide,
    (c5_archival_once_per_sampled_job 1 ⟨[], [[([false], 100)]]⟩ (some 100) []).1
      (by decide),
    by decide,
    (c5_archival_once_per_sampled_job 1 ⟨[], [[([false], 100)]]⟩ none []).2.1
      (by decide) true,
    (c5_archival_once_per_sampled_job 1 ⟨[], [[([false], 100)]]⟩ (some 100)
      [⟨[], [[([false], 100)]]⟩, ⟨[], [[([false], 100)]]⟩]).2.2 (by decide)⟩

/-- C6 counterexample: with a `Backends` pool as `backend`, supplying both
`noise_model` and `noise_backend` raises no error at all (the check at
lines 63-64 sits in the other branch); with a plain backend the
`ValueError` is raised, but only after `save_path` (line 52) and `backend`
(line 61) have been assigned, so partial state mutation does occur. -/
theorem c6_counterexample :
    (qkCircuitML.init .backendsPool true true).raisesValueError = false
    ∧ (qkCircuitML.init .plain true true).raisesValueError = true
    ∧ (qkCircuitML.init .plain true true).assigned ≠ [] := by
  decide

/-- C6 (amended): construction fails with `ValueError` on simultaneous
`noise_model` and `noise_backend` exactly when `backend` is not a
`Backends` pool, and the failing construction has already assigned
`save_path` and `backend` (and nothing else in `__init__`'s own body)
before raising. -/
theorem c6_config_error (b : qkCircuitML.BackendArg) (nm nb : Bool) :
    ((qkCircuitML.init b nm nb).raisesValueError = true
      ↔ (b ≠ .backendsPool ∧ nm = true ∧ nb = true))
    ∧ ((qkCircuitML.init b nm nb).raisesValueError = true →
        (qkCircuitML.init b nm nb).assigned = ["save_path", "backend"]) := by
  cases b <;> cases nm <;> cases nb <;> simp [qkCircuitML.init]

theorem c6_witness :
    (qkCircuitML.init .plain true true).raisesValueError = true
    ∧ (qkCircuitML.init .plain true true).assigned = ["save_path", "backend"] :=
  ⟨(c6_config_error .plain true true).1.mpr ⟨by decide, rfl, rfl⟩,
    (c6_config_error .plain true true).2 (by decide)⟩

/-- C7: a positive `job_size` partitions the batch into consecutive chunks
(smaller final chunk for the remainder; sizes 2, 2, 1 for a batch of 5
with `job_size = 2`), submits every chunk job before awaiting any (the
`request` comprehension at lines 95-97 completes before the `result`
comprehension at line 99 starts), and stacks the per-chunk matrices in
original sample order. -/
theorem c7_chunk_partition {α β : Type} (X : List α) (f : α → β) (js : Nat)
    (hjs : 1 ≤ js) (hX : X ≠ []) :
    ((qkCircuitML.chunks X js).flatten = X)
    ∧ (X.length = 5 → js = 2 →
        (qkCircuitML.chunks X js).map List.length = [2, 2, 1])
    ∧ (qkCircuitML.run X f (.pyInt (js : ℤ)) = .ok (X.map f))
    ∧ (∀ (p q : Nat) (hp : p < (qkCircuitML.runEvents X js).length)
          (hq : q < (qkCircuitML.runEvents X js).length),
        ((qkCircuitML.runEvents X js).get ⟨p, hp⟩).isSubmit = true →
        ((qkCircuitML.runEvents X js).get ⟨q, hq⟩).isAwait = true → p < q) := by
  refine ⟨chunks_flatten X hjs, ?_, ?_, ?_⟩
  · intro h5 h2
    subst h2
    have hdiv : X.length / 2 = 2 := by rw [h5]
    have hrange : List.range (X.length / 2) = [0, 1] := by rw [hdiv]; rfl
    have hcond : 2 * (X.length / 2) < X.length := by omega
    rw [qkCircuitML.chunks, hrange, if_pos hcond]
    simp [List.length_take, List.length_drop, hdiv, h5]
  · have hn : (0 : ℤ) < (js : ℤ) := by omega
    rw [run_pyInt_pos X f hn hX, ← List.map_flatten]
    have : ((js : ℤ)).toNat = js := by omega
    rw [this, chunks_flatten X hjs]
  · intro p q hp hq hsub hawait
    set k := (qkCircuitML.chunks X js).length with hk
    have hlensub : ((List.range k).map qkCircuitML.RunEvent.submit).length = k := by
      simp
    have hpk : p < k := by
      by_contra hc
      push_neg at hc
      have hplen : p - k < ((List.range k).map qkCircuitML.RunEvent.await).length := by
        have := hp
        simp only [qkCircuitML.runEvents, List.length_append, List.length_map,
          List.length_range] at this ⊢
        omega
      have hval : (qkCircuitML.runEvents X js).get ⟨p, hp⟩
          = qkCircuitML.RunEvent.await ((List.range k).get ⟨p - k, by simpa using hplen⟩) := by
        show (qkCircuitML.runEvents X js)[p] = _
        simp only [qkCircuitML.runEvents]
        rw [List.getElem_append_right (by simpa using hc)]
        simp
      rw [hval] at hsub
      simp [qkCircuitML.RunEvent.isSubmit] at hsub
    have hqk : k ≤ q := by
      by_contra hc
      push_neg at hc
      have hval : (qkCircuitML.runEvents X js).get ⟨q, hq⟩
          = qkCircuitML.RunEvent.submit ((List.range k).get ⟨q, by simpa using hc⟩) := by
        show (qkCircuitML.runEvents X js)[q] = _
        simp only [qkCircuitML.runEvents]
        rw [List.getElem_append_left (by simpa using hc)]
        simp
      rw [hval] at hawait
      simp [qkCircuitML.RunEvent.isAwait] at hawait
    omega

theorem c7_witness :
    (qkCircuitML.chunks [3, 1, 4, 1, 5] 2).flatten = [3, 1, 4, 1, 5]
    ∧ (qkCircuitML.chunks [3, 1, 4, 1, 5] 2).map List.length = [2, 2, 1]
    ∧ qkCircuitML.run [3, 1, 4, 1, 5] (fun x => x + 1) (.pyInt 2)
        = .ok [4, 2, 5, 2, 6]
    ∧ (0 : Nat) < 3 := by
  have h := c7_chunk_partition [3, 1, 4, 1, 5] (fun x => x + 1) 2
    (by decide) (by decide)
  refine ⟨h.1, h.2.1 (by decide) rfl, ?_, ?_⟩
  · have := h.2.2.1
    simpa using this
  · exact h.2.2.2 0 3 (by decide) (by decide) (by decide) (by decide)

/-- C8: row-sum invariants of the normalizer.  Sampled mode: if the counts
dictionary of a circuit has distinct `q`-wide keys and its counts sum to
the requested shot count, the output row sums exactly to the shot count
(bitstring-reversal indexing is a bijection, so nothing is lost or
doubled).  Exact mode: if every statevector has `2^q` entries and unit
total probability, every row of the normalized matrix sums to 1 (exactly,
over `ℚ`). -/
theorem c8_row_sum_invariants (q shots : Nat) (cs : List (List Bool × Nat))
    (svs : List (List (ℚ × ℚ))) :
    ((∀ kc ∈ cs, kc.1.length = q) → (cs.map Prod.fst).Nodup →
      (cs.map (fun kc => (kc.2 : ℚ))).sum = (shots : ℚ) →
      (qkCircuitML.sampledRow q cs).sum = (shots : ℚ))
    ∧ ((∀ sv ∈ svs, sv.length = 2 ^ q
          ∧ (sv.map (fun a => a.1 ^ 2 + a.2 ^ 2)).sum = 1) →
      ∀ row ∈ qkCircuitML.normalizeExact q svs, row.sum = 1) := by
  constructor
  · intro hlen hnd hsum
    rw [qkCircuitML.sampledRow,
      sampledFold_sum cs _ (keyColumn_map_nodup q cs hlen hnd) ?_ ?_, hsum]
    · simp [List.sum_replicate]
    · intro kc hkc
      rw [List.length_replicate]
      exact keyColumn_lt q (hlen kc hkc)
    · intro kc hkc
      have hlt : qkCircuitML.keyColumn kc.1 < 2 ^ q := keyColumn_lt q (hlen kc hkc)
      simp [List.getD_eq_getElem?_getD, List.getElem?_replicate, hlt]
  · intro hsv row hrow
    obtain ⟨sv, hsvmem, hsveq⟩ := List.mem_map.mp hrow
    obtain ⟨hlen, hsum⟩ := hsv sv hsvmem
    rw [← hsveq, reorderRow_sum q _ (by rw [List.length_map, hlen]), hsum]

theorem c8_witness :
    (qkCircuitML.sampledRow 2 [([false, true], 40), ([true, false], 60)]).sum
      = ((100 : Nat) : ℚ)
    ∧ ∀ row ∈ qkCircuitML.normalizeExact 2
        [[((1 : ℚ), (0 : ℚ)), (0, 0), (0, 0), (0, 0)]], row.sum = 1 := by
  have h := c8_row_sum_invariants 2 100 [([false, true], 40), ([true, false], 60)]
    [[((1 : ℚ), (0 : ℚ)), (0, 0), (0, 0), (0, 0)]]
  exact ⟨h.1 (by decide) (by decide) (by norm_num),
    h.2 (by norm_num)⟩

/-- C9: backend rotation is a pure round-robin: starting from the pools
built by `__init__`, the three cycle iterators are advanced in lockstep,
exactly once per submission (after `i` submissions each sits at position
`i`), the `i`-th submission over a target list of length `n` draws target
`i mod n`, and a single configured value is drawn on every submission. -/
theorem c9_round_robin {α β γ : Type} (noise : qkCircuitML.ArgList β)
    (coupling : qkCircuitML.ArgList γ) (i : Nat) :
    (∀ backend : qkCircuitML.ArgList α,
      (qkCircuitML.poolsAfter (qkCircuitML.initPools backend noise coupling) i).backend.idx = i
      ∧ (qkCircuitML.poolsAfter (qkCircuitML.initPools backend noise coupling) i).noise_model.idx = i
      ∧ (qkCircuitML.poolsAfter (qkCircuitML.initPools backend noise coupling) i).coupling_map.idx = i)
    ∧ (∀ (l : List α) (h : l ≠ []),
      (qkCircuitML.drawAt (qkCircuitML.initPools (.list l) noise coupling) i).1
        = some (l.get ⟨i % l.length, Nat.mod_lt i (List.length_pos.mpr h)⟩))
    ∧ (∀ a : α,
      (qkCircuitML.drawAt (qkCircuitML.initPools (.single a) noise coupling) i).1
        = some a) := by
  refine ⟨?_, ?_, ?_⟩
  · intro backend
    rw [poolsAfter_eq]
    simp [qkCircuitML.initPools]
  · intro l h
    rw [drawAt_eq]
    show l[(0 + i) % l.length]? = _
    rw [Nat.zero_add]
    exact List.getElem?_eq_getElem (Nat.mod_lt i (List.length_pos.mpr h))
  · intro a
    rw [drawAt_eq]
    show [a][(0 + i) % [a].length]? = _
    rw [Nat.zero_add]
    simp [Nat.mod_one]

theorem c9_witness :
    (qkCircuitML.drawAt
        (qkCircuitML.initPools (.list [10, 20, 30]) (.single true) (.single 5)) 4).1
      = some 20
    ∧ (qkCircuitML.drawAt
        (qkCircuitML.initPools (.single 7) (.single true) (.single 5)) 9).1
      = some 7
    ∧ (qkCircuitML.poolsAfter
        (qkCircuitML.initPools (.list [10, 20, 30]) (.single true) (.single 5))
        4).noise_model.idx = 4 := by
  have h4 := c9_round_robin (α := Nat) (.single true) (.single 5) 4
  have h9 := c9_round_robin (α := Nat) (.single true) (.single 5) 9
  exact ⟨h4.2.1 [10, 20, 30] (by decide), h9.2.2 7,
    (h4.1 (.list [10, 20, 30])).2.1⟩

/-- C10: `run` raises the `TypeError` at line 92 exactly when `job_size`
is truthy and not an `int`; a falsy `job_size` — including the `int` 0,
which violates the documented positive-integer precondition — takes the
single-job path and submits the whole batch as one job. -/
theorem c10_job_size_type_check {α β : Type} (X : List α) (f : α → β)
    (js : qkCircuitML.JobSizeArg) :
    (qkCircuitML.run X f js = .typeError
      ↔ (qkCircuitML.truthy js = true ∧ qkCircuitML.isInt js = false))
    ∧ qkCircuitML.run X f (.pyInt 0) = .ok (X.map f) := by
  constructor
  · cases js with
    | pyNone => simp [qkCircuitML.run, qkCircuitML.truthy]
    | pyInt n =>
      by_cases hn : n = 0
      · subst hn
        simp [qkCircuitML.run, qkCircuitML.truthy]
      · have ht : qkCircuitML.truthy (.pyInt n) = true := by
          simp [qkCircuitML.truthy, hn]
        rw [qkCircuitML.run, ht]
        simp only [Bool.true_eq_false, if_false, qkCircuitML.isInt]
        constructor
        · intro h
          by_cases hemp : (qkCircuitML.chunksI X n).isEmpty
          · rw [if_pos hemp] at h; cases h
          · rw [if_neg hemp] at h; cases h
        · rintro ⟨-, h⟩
          cases h
    | pyStr s =>
      by_cases hs : s = []
      · subst hs
        simp [qkCircuitML.run, qkCircuitML.truthy]
      · have ht : qkCircuitML.truthy (.pyStr s) = true := by
          simp [qkCircuitML.truthy, hs]
        rw [qkCircuitML.run, ht]
        simp only [Bool.true_eq_false, if_false, qkCircuitML.isInt]
        simp
        intro n h
        cases h
  · simp [qkCircuitML.run, qkCircuitML.truthy]

end PolyadicQML
